import Mathlib

/-!
Verification of the state-boundary clustering pipeline in
`pensa/statesinfo/ssi_clustering.py`.

The Python source is shallowly embedded below.  Pure list manipulation and
rational arithmetic are modelled over `List ℚ` (Python floats at the concrete
inputs used here are exact small decimals, so rational arithmetic agrees);
values built from transcendental functions (`np.exp`, `np.cos`, `np.sqrt`,
`np.log`, `math.erf`) are modelled over `ℝ`.  Fallible Python code is
modelled with `Except PyErr`; the alternatives of `PyErr` name the Python
exception that the corresponding source line raises.  A call that never
returns (a blocking `queue.PriorityQueue.get()` on an empty queue) is
modelled by the distinguished alternative `PyErr.blocked`.

The nonlinear optimiser `scipy.optimize.curve_fit` is third-party numerical
code with no specified input/output relation; functions downstream of it
(`determine_state_limits`) are therefore parameterised by the fit outcome
(the list of dense component curves and the x-grid that `gauss_fit`
produces).
-/

attribute [local semireducible] Rat.add Rat.sub Rat.mul Rat.inv Rat.ofScientific

deriving instance DecidableEq for Except

/-- Python exceptions (and one marker for a call that blocks forever). -/
inductive PyErr : Type
  | valueError
  | nameError
  | indexError
  | typeError
  | unboundLocal
  | zeroDivision
  | blocked
  deriving DecidableEq, Repr

/-- Python `min` over a nonempty list (`min(distribution)`).
Python raises on an empty list; the default `0` is never relied upon. -/
def pyMin (l : List ℚ) : ℚ :=
  match l with
  | [] => 0
  | h :: t => t.foldl min h

/-- Python `max` over a nonempty list (`max(distribution)`).
Python raises on an empty list; the default `0` is never relied upon. -/
def pyMax (l : List ℚ) : ℚ :=
  match l with
  | [] => 0
  | h :: t => t.foldl max h

/-- `find_nearest(distr, value)`: the element of `distr` with minimum
absolute difference to `value`; `np.argmin` ties resolve to the first
occurrence in scan order. -/
def find_nearest (distr : List ℚ) (value : ℚ) : ℚ :=
  let diffs := distr.map (fun a => |a - value|)
  distr.getD (diffs.indexOf (pyMin diffs)) 0

/-- `_gauss(x, x0, sigma, a)`.  The source guards the computation with
`if sigma != 0:`; when `sigma == 0` the local variable `gaussian` is never
assigned and `return gaussian` raises `UnboundLocalError` (no division is
performed on that path). -/
noncomputable def gaussEval (x x0 sigma a : ℝ) : Except PyErr ℝ :=
  if sigma ≠ 0 then
    .ok |a * Real.exp (-(x - x0) ^ 2 / (2 * sigma ^ 2))|
  else
    .error .unboundLocal

/-- `np.hanning(M)`: the Hanning window
`w[k] = 0.5 - 0.5*cos(2*pi*k/(M-1))`, `k = 0, ..., M-1`. -/
noncomputable def hanningList (M : ℕ) : List ℝ :=
  (List.range M).map (fun k : ℕ =>
    0.5 - 0.5 * Real.cos (2 * Real.pi * (k : ℝ) / ((M : ℝ) - 1)))

/-- `np.convolve(a, v, mode='valid')` when `a` is the shorter sequence:
entry `j` is `sum_m a[m] * v[j + len(a) - 1 - m]`. -/
noncomputable def convolveValidCore (a v : List ℝ) : List ℝ :=
  (List.range (v.length + 1 - a.length)).map (fun j =>
    ((List.range a.length).map (fun m => a.getD m 0 * v.getD (j + a.length - 1 - m) 0)).sum)

/-- `np.convolve(a, v, mode='valid')` (convolution is symmetric in its
arguments; numpy slides the shorter sequence over the longer one). -/
noncomputable def convolveValid (a v : List ℝ) : List ℝ :=
  if a.length ≤ v.length then convolveValidCore a v else convolveValidCore v a

/-- `smooth(x, window_len, window)` from the source, for 1-D input.

Order of checks follows the source exactly: the shape check `x.ndim != 1`
is vacuous here (a `List ℝ` is one-dimensional by construction), then
`x.size < window_len` raises `ValueError`, then `window_len < 3` returns
the input unchanged, and only then is the window name examined.  In the
source `window_type` is assigned only under `if window is None:`, so any
non-`None` argument reaches `if not window_type in [...]` with
`window_type` unbound and raises `NameError`; the `None` path uses the
Hanning kernel.  The padded sequence is
`np.r_[x[window_len-1:0:-1], x, x[-2:-window_len-1:-1]]` and the result is
`np.convolve(w/w.sum(), s, mode='valid')`. -/
noncomputable def smooth (x : List ℝ) (window_len : ℕ) (window : Option String) :
    Except PyErr (List ℝ) :=
  if x.length < window_len then .error .valueError
  else if window_len < 3 then .ok x
  else
    match window with
    | some _ => .error .nameError
    | none =>
      .ok (convolveValid
        ((hanningList window_len).map (fun v => v / (hanningList window_len).sum))
        (((x.drop 1).take (window_len - 1)).reverse ++ x ++
          ((x.take (x.length - 1)).drop (x.length - window_len)).reverse))

/-- `np.sign` on a rational. -/
def signQ (q : ℚ) : ℤ :=
  if q < 0 then -1 else if 0 < q then 1 else 0

/-- `np.argwhere(np.diff(np.sign(gA - gB))).flatten()`: the grid indices
`i` at which the sign of the pointwise difference changes between `i` and
`i+1`. -/
def crossIdx (gA gB : List ℚ) : List ℕ :=
  (List.range (gA.length - 1)).filter (fun i =>
    signQ (gA.getD i 0 - gB.getD i 0) != signQ (gA.getD (i + 1) 0 - gB.getD (i + 1) 0))

/-- The boundary produced for one adjacent pair of reordered Gaussian
curves in `get_intersects`:

* exactly one sign change: the grid value there, `float(xline[idx][0])`;
* several sign changes: the crossing whose `gA`-value is maximal;
  `float(xline[intersect_ymax_index])` succeeds only when that maximum is
  attained at exactly one crossing — a multi-element fancy-indexed array
  makes `float(...)` raise `TypeError`;
* no sign change: `0.5 * np.abs(xline[gauss_max2] + xline[gauss_max1])`,
  the absolute value of the *sum* of the two peak x-locations, halved
  (the source comment says "center between maxima"). -/
def pairBoundary (xline gA gB : List ℚ) : Except PyErr ℚ :=
  match crossIdx gA gB with
  | [] =>
    .ok (0.5 * |xline.getD (gB.indexOf (pyMax gB)) 0 + xline.getD (gA.indexOf (pyMax gA)) 0|)
  | [i] => .ok (xline.getD i 0)
  | idx =>
    match idx.filter (fun i => gA.getD i 0 == pyMax (idx.map (fun j => gA.getD j 0))) with
    | [i] => .ok (xline.getD i 0)
    | _ => .error .typeError

/-- The loop `for gauss_index in range(len(reorder_gaussians)-1)` of
`get_intersects`, collecting one boundary per adjacent pair; a raised
exception aborts the whole loop, as in Python. -/
def pairBoundaries (xline : List ℚ) : List (List ℚ) → Except PyErr (List ℚ)
  | a :: b :: rest =>
    match pairBoundary xline a b with
    | .error e => .error e
    | .ok v =>
      match pairBoundaries xline (b :: rest) with
      | .error e => .error e
      | .ok vs => .ok (v :: vs)
  | _ => .ok []

/-- `get_intersects(gaussians, distribution, xline)` (plotting side effect
omitted: it is requested by the `write_plots` flag and does not affect the
returned list).  Components are reordered by the x-location of their peak
(`sorted` + `list.index`, so duplicated peak locations repeat the first
matching curve, exactly as in the source), curves whose maximum is
`<= 0.0001` are dropped, one boundary is produced per adjacent pair, and
the distribution extrema are prepended/appended. -/
def get_intersects (gaussians : List (List ℚ)) (distribution : List ℚ) (xline : List ℚ) :
    Except PyErr (List ℚ) :=
  let mean_gauss_xval := gaussians.map (fun g => xline.getD (g.indexOf (pyMax g)) 0)
  let reorder_indices :=
    (List.insertionSort (fun a b => a ≤ b) mean_gauss_xval).map
      (fun m => mean_gauss_xval.indexOf m)
  let reorder_gaussians :=
    (reorder_indices.filter (fun gn => (0.0001 : ℚ) < pyMax (gaussians.getD gn []))).map
      (fun gn => gaussians.getD gn [])
  match pairBoundaries xline reorder_gaussians with
  | .error e => .error e
  | .ok mids => .ok (pyMin distribution :: (mids ++ [pyMax distribution]))

/-- `determine_state_limits(distr, ...)`, parameterised by the fit stage:
`fit` stands for `smart_gauss_fit`'s numerical outcome (the retained dense
curves and the x-grid) on the sentinel-filtered distribution, which is
decided by `scipy.optimize.curve_fit` and is not otherwise specified.
Sentinel samples `10000.0` are filtered out, a sentinel boundary `20000.0`
is appended when the raw input contained at least one sentinel, and the
final list is sorted ascending (`np.sort`). -/
def determine_state_limits_with (fit : List ℚ → List (List ℚ) × List ℚ) (distr : List ℚ) :
    Except PyErr (List ℚ) :=
  let distribution := distr.filter (fun item => item != 10000.0)
  let gx := fit distribution
  match get_intersects gx.1 distribution gx.2 with
  | .error e => .error e
  | .ok intersection_of_states =>
    .ok (List.insertionSort (fun a b => a ≤ b)
      (if 1 ≤ distr.count 10000.0 then intersection_of_states ++ [20000.0]
       else intersection_of_states))

/-- A concrete fit outcome (two dense curves on the grid `[-3, -2, -1]`,
the first everywhere strictly above the second, peaking at `x = -2` and
`x = -1`) standing in for `smart_gauss_fit`'s numerical result on a
negative-domain distribution. -/
def fitCexC1 : List ℚ → List (List ℚ) × List ℚ :=
  fun _ => ([[2, 4, 3], [1, 2, 5/2]], [-3, -2, -1])

/-- `bin_adjust_up = np.array(range(1,10000))`. -/
def bin_adjust_up : List ℤ :=
  (List.range 9999).map (fun i : ℕ => (i : ℤ) + 1)

/-- `bin_adjust_down = bin_adjust_up.copy()*-1`. -/
def bin_adjust_down : List ℤ :=
  bin_adjust_up.map (fun v => v * -1)

/-- `np.insert(base, np.arange(len(ins)), ins)` for equal-length arrays:
each `ins[i]` is inserted before `base[i]`, interleaving the two arrays
starting with `ins[0]`. -/
def npInsertAlt : List ℤ → List ℤ → List ℤ
  | base, [] => base
  | [], v :: vs => v :: vs
  | b :: bs, v :: vs => v :: b :: npInsertAlt bs vs

/-- `bin_adjust = np.insert(bin_adjust_up, np.arange(len(bin_adjust_down)), bin_adjust_down)`,
i.e. `[-1, 1, -2, 2, -3, 3, ...]`. -/
def bin_adjust : List ℤ :=
  npInsertAlt bin_adjust_up bin_adjust_down

/-- The bin count in force when `gauss_fit` is attempted for the `m`-th
time: the original count at attempt 0, and
`bin_origin + bin_adjust[attempt_no]` after `attempt_no` failures (the
source increments `attempt_no` before indexing, so `bin_adjust[0] = -1` is
never used). -/
def attemptBins (bin_origin : ℤ) (m : ℕ) : ℤ :=
  if m = 0 then bin_origin else bin_origin + bin_adjust.getD m 0

/-- The `while trial < 1:` retry loop of `smart_gauss_fit`.  `fitOK bins
gsmooth` abstracts whether `gauss_fit(distr, bins, gsmooth)` succeeds (its
failure is decided by numpy/scipy numerics on the given distribution).
The loop state is `(attempt_no, gauss_bins)`; on failure `attempt_no` is
incremented and `gauss_bins` is recomputed from `bin_origin` and the
`bin_adjust` table; once `attempt_no + 1` overruns the table, Python
raises `IndexError` inside the handler (modelled as `none`).  `fuel`
exceeds the table length, so `none` is only the `IndexError` case.
On success it returns the bin count and smoothing window used, plus the
number of failed attempts. -/
def smartFitLoop (fitOK : ℤ → ℤ → Bool) (bin_origin gsmooth : ℤ) :
    ℕ → ℕ → ℤ → Option (ℤ × ℤ × ℕ)
  | 0, _, _ => none
  | fuel + 1, attempt_no, gauss_bins =>
    if fitOK gauss_bins gsmooth then some (gauss_bins, gsmooth, attempt_no)
    else if attempt_no + 1 < bin_adjust.length then
      smartFitLoop fitOK bin_origin gsmooth fuel (attempt_no + 1)
        (bin_origin + bin_adjust.getD (attempt_no + 1) 0)
    else none

/-- `smart_gauss_fit(distr, gauss_bins, gauss_smooth)` control flow.  When
`gauss_smooth is None` it is set to `int(gauss_bins*0.1)` once, before the
loop (for the bin counts arising here `int(b*0.1)` agrees with truncating
division by 10); the loop then never recomputes it. -/
def smart_gauss_fit (fitOK : ℤ → ℤ → Bool) (gauss_bins : ℤ) (gauss_smooth : Option ℤ) :
    Option (ℤ × ℤ × ℕ) :=
  smartFitLoop fitOK gauss_bins
    (match gauss_smooth with
     | none => gauss_bins / 10
     | some s => s)
    (bin_adjust.length + 1) 0 gauss_bins

/-- The ordering of Python tuples `(-diff, index)` as compared by
`queue.PriorityQueue`: lexicographic on the pair. -/
def lexLe (a b : ℚ × ℕ) : Prop :=
  a.1 < b.1 ∨ (a.1 = b.1 ∧ a.2 ≤ b.2)

instance (a b : ℚ × ℕ) : Decidable (lexLe a b) :=
  inferInstanceAs (Decidable (a.1 < b.1 ∨ (a.1 = b.1 ∧ a.2 ≤ b.2)))

/-- `pq.get()`: remove and return the smallest tuple of the priority
queue (the queue is modelled as the list of its elements; `get` on an
empty queue blocks, which callers must handle — here `none`). -/
def popMin : List (ℚ × ℕ) → Option ((ℚ × ℕ) × List (ℚ × ℕ))
  | [] => none
  | a :: t =>
    match popMin t with
    | none => some (a, [])
    | some (m, r) => if lexLe a m then some (a, t) else some (m, a :: r)

/-- The final `while(not pq.empty())` drain of `printKclosest`: repeatedly
pop the smallest tuple and collect the popped tuples in order.  The fuel
is the queue length, so the queue is always emptied. -/
def drainAux : ℕ → List (ℚ × ℕ) → List (ℚ × ℕ)
  | 0, _ => []
  | fuel + 1, h =>
    match popMin h with
    | none => []
    | some (m, r) => m :: drainAux fuel r

def drain (h : List (ℚ × ℕ)) : List (ℚ × ℕ) :=
  drainAux h.length h

/-- The second loop of `printKclosest` (`for neighb in range(k, n)`):
`todo` is the list of remaining indices; the heap is updated by popping
the root `(p, pi)` (blocking forever — `PyErr.blocked` — if the heap is
empty, which happens exactly when `k = 0` and there are indices left) and
either pushing it back (`diff > curr`) or replacing it with the new
element `(-diff, neighb)`. -/
def processIdx (arr : List ℚ) (x : ℚ) : List ℕ → List (ℚ × ℕ) → Except PyErr (List (ℚ × ℕ))
  | [], h => .ok h
  | i :: rest, h =>
    match popMin h with
    | none => .error .blocked
    | some ((p, pi), r) =>
      if |arr.getD i 0 - x| > -p then processIdx arr x rest ((p, pi) :: r)
      else processIdx arr x rest ((-|arr.getD i 0 - x|, i) :: r)

/-- `printKclosest(arr, n, x, k)`: a max-heap (priority queue of
`(-diff, index)` tuples) of the first `k` indices is built, the indices
`k, ..., n-1` are processed (see `processIdx`), and the heap is drained;
the returned list holds the array values at the drained indices (the
source formats each value through `str(...)` and the caller parses it back
with `float(...)`, an exact round-trip for Python floats, so values are
returned directly here).  Indexing `arr` outside its length raises
`IndexError`. -/
def printKclosest (arr : List ℚ) (n : ℕ) (x : ℚ) (k : ℕ) : Except PyErr (List ℚ) :=
  if k ≤ arr.length ∧ n ≤ arr.length then
    match processIdx arr x (List.range' k (n - k))
        ((List.range k).map (fun i => (-|arr.getD i 0 - x|, i))) with
    | .error e => .error e
    | .ok h => .ok ((drain h).map (fun e => arr.getD e.2 0))
  else .error .indexError

/-- Invariant of the `printKclosest` heap after all indices below `bound`
have been considered: every entry holds the negated distance-to-target of
its index, indices are distinct and below `bound`, and any index below
`bound` missing from the heap is at least as far from the target as every
entry of the heap. -/
def HeapInv (arr : List ℚ) (x : ℚ) (bound : ℕ) (h : List (ℚ × ℕ)) : Prop :=
  (∀ e ∈ h, e.2 < bound ∧ e.1 = -|arr.getD e.2 0 - x|) ∧
  (h.map Prod.snd).Nodup ∧
  (∀ j, j < bound → (∀ e ∈ h, e.2 ≠ j) → ∀ e ∈ h, -e.1 ≤ |arr.getD j 0 - x|)

/-- `mean_xval = distributionx[np.where(distributiony==extrema)[0][0]]`:
the x-value at the first index where the smoothed density equals the
peak value (the source raises `IndexError` when the value is absent; the
estimator only calls this with values taken from `distributiony`). -/
def mean_xvalOf (dx dy : List ℚ) (extrema : ℚ) : ℚ :=
  dx.getD (dy.indexOf extrema) 0

/-- The half-max crossing estimate for one surviving peak of `gauss_fit`:
`closest = printKclosest(distributiony, len(distributiony), extrema*0.5, 28)`,
`xlist = [np.where(distributiony==float(c))[0][0] for c in closest]`,
`xsig = find_nearest(distributionx[xlist], mean_xval)`. -/
def xsigOf (dx dy : List ℚ) (extrema : ℚ) : Except PyErr ℚ :=
  match printKclosest dy dy.length (extrema * 0.5) 28 with
  | .error e => .error e
  | .ok closest =>
    .ok (find_nearest (closest.map (fun c => dx.getD (dy.indexOf c) 0))
      (mean_xvalOf dx dy extrema))

/-- `FWHM = np.absolute(xsig - mean_xval)` — note: the absolute difference
itself, with no factor of 2. -/
def peak_FWHM (dx dy : List ℚ) (extrema : ℚ) : Except PyErr ℚ :=
  match xsigOf dx dy extrema with
  | .error e => .error e
  | .ok xsig => .ok |xsig - mean_xvalOf dx dy extrema|

/-- `sigma = FWHM / (2*(np.sqrt(2*np.log(2))))`. -/
noncomputable def peak_sigma (dx dy : List ℚ) (extrema : ℚ) : Except PyErr ℝ :=
  match peak_FWHM dx dy extrema with
  | .error e => .error e
  | .ok F => .ok ((F : ℝ) / (2 * Real.sqrt (2 * Real.log 2)))

/-- A concrete smoothed histogram for exercising the per-peak estimator:
x-grid `0, 1, ..., 29`; densities: a peak value `200` at index 0 followed
by a cluster `86, 87, ..., 114`.  The 28 values closest to the half-max
`100` are `87, ..., 114`, whose x-positions are `2, ..., 29`; the one
closest to the peak x-position `0` is `x = 2`. -/
def dxCexC3 : List ℚ :=
  (List.range 30).map (fun j : ℕ => (j : ℚ))

def dyCexC3 : List ℚ :=
  200 :: (List.range 29).map (fun j : ℕ => ((86 + j : ℕ) : ℚ))

/-- `argrelextrema(distributiony, np.greater)`: indices of strict local
maxima (default order 1; boundary indices are never maxima under clip
mode since an endpoint is compared with itself). -/
def argrelmax (dy : List ℚ) : List ℕ :=
  (List.range dy.length).filter (fun i =>
    decide (0 < i ∧ i + 1 < dy.length ∧
      dy.getD (i - 1) 0 < dy.getD i 0 ∧ dy.getD (i + 1) 0 < dy.getD i 0))

/-- `maxima = [distributiony[item] for item in argrelextrema(...)][0]`:
the densities at the local-maximum indices. -/
def maximaOf (dy : List ℚ) : List ℚ :=
  (argrelmax dy).map (fun i => dy.getD i 0)

/-- `corrected_extrema = [item for item in maxima if item > max(distributiony)*0.0075]`:
the significance filter at 0.75% of the global maximum. -/
def corrected_extrema (dy : List ℚ) : List ℚ :=
  (maximaOf dy).filter (fun item => decide (pyMax dy * 0.0075 < item))

/-- The modality table
`peak_number = [_gauss, _bimodal, ..., _decamodal]`, represented by the
number of Gaussian components of each entry (1 through 10;
`_decamodal` is entry 10). -/
def peak_number : List ℕ :=
  [1, 2, 3, 4, 5, 6, 7, 8, 9, 10]

/-- Python list indexing `l[i]` with wrap-around for negative indices
(`l[-1]` is the last element); out-of-range indices raise `IndexError`
(`none`). -/
def pyIndex {α : Type} (l : List α) (i : ℤ) : Option α :=
  if 0 ≤ i then l.get? i.toNat
  else if (l.length : ℤ) + i < 0 then none
  else l.get? ((l.length : ℤ) + i).toNat

/-- The `for extrema in corrected_extrema:` loop of `gauss_fit` collecting
`sig_vals`; an exception in any iteration aborts the whole call. -/
noncomputable def sigValsAux (dx dy : List ℚ) : List ℚ → Except PyErr (List ℝ)
  | [] => .ok []
  | e :: rest =>
    match peak_sigma dx dy e with
    | .error er => .error er
    | .ok s =>
      match sigValsAux dx dy rest with
      | .error er => .error er
      | .ok ss => .ok (s :: ss)

noncomputable def sig_vals (dx dy : List ℚ) : Except PyErr (List ℝ) :=
  sigValsAux dx dy (corrected_extrema dy)

/-- `mean_vals = [distributionx[np.where(distributiony==extrema)[0][0]] for extrema in corrected_extrema]`. -/
def mean_vals (dx dy : List ℚ) : List ℚ :=
  (corrected_extrema dy).map (fun e => dx.getD (dy.indexOf e) 0)

/-- The `expected` initial-guess vector: `(mean, sigma, amplitude)`
interleaved per peak, the amplitude guess being the peak's shifted
density (`corrected_extrema[param_num]`). -/
def joinTriples : List ℚ → List ℝ → List ℚ → List ℝ
  | m :: ms, s :: ss, a :: rest => (m : ℝ) :: s :: (a : ℝ) :: joinTriples ms ss rest
  | _, _, _ => []

/-- The model-selection step of `gauss_fit`:
`mode = peak_number[len(sig_vals)-1]` (Python indexing, so an empty
`sig_vals` wraps to the last entry) together with the assembled `expected`
initial-guess vector.  Returns the component count of the chosen mixture
and the guess vector. -/
noncomputable def gaussFitSelect (dx dy : List ℚ) : Except PyErr (ℕ × List ℝ) :=
  match sig_vals dx dy with
  | .error e => .error e
  | .ok sv =>
    match pyIndex peak_number ((sv.length : ℤ) - 1) with
    | none => .error .indexError
    | some modality => .ok (modality, joinTriples (mean_vals dx dy) sv (corrected_extrema dy))

lemma convolveValid_length (a v : List ℝ) (h : a.length ≤ v.length) :
    (convolveValid a v).length = v.length + 1 - a.length := by
  rw [convolveValid, if_pos h]
  simp [convolveValidCore]

lemma hanningList_length (M : ℕ) : (hanningList M).length = M := by
  rw [hanningList, List.length_map, List.length_range]

/-- C6: the claim asserts that for every input sequence and every
`window_len < 3` the smoothing filter is a no-op "regardless of the
sequence's length or dimensionality".  This is false: the source checks
`x.size < window_len` (raising `ValueError`) before the `window_len < 3`
early return, so e.g. the one-element sequence `[5]` with `window_len = 2`
raises instead of being returned unchanged. -/
theorem C6_short_input_raises :
    smooth [5] 2 none = .error .valueError ∧ smooth [5] 2 none ≠ .ok [5] := by
  have h : smooth [5] 2 none = .error .valueError := by
    rw [smooth.eq_def]
    norm_num
  exact ⟨h, by rw [h]; exact fun hc => Except.noConfusion hc⟩

/-- C6 (amended): for every 1-D sequence whose size is at least
`window_len`, and every `window_len < 3`, the smoothing filter returns the
input unchanged, for any `window` argument. -/
theorem C6_noop_below_three (x : List ℝ) (window_len : ℕ) (window : Option String)
    (h3 : window_len < 3) (hlen : window_len ≤ x.length) :
    smooth x window_len window = .ok x := by
  rw [smooth.eq_def, if_neg (by omega), if_pos h3]

/-- C6 witness. -/
theorem C6_noop_below_three_wit :
    2 < 3 ∧ 2 ≤ ([1, 2] : List ℝ).length ∧ smooth [1, 2] 2 none = .ok [1, 2] :=
  ⟨by norm_num, by norm_num,
    C6_noop_below_three [1, 2] 2 none (by norm_num) (by norm_num)⟩

/-- C10: for every 1-D input of length `n ≥ window_len` with
`window_len ≥ 3`, the smoothing filter returns a sequence of length
`n + window_len - 1` (the reflective padding adds `2*(window_len-1)` points
and the valid-mode convolution removes only `window_len - 1` of them). -/
theorem C10_smooth_length (x : List ℝ) (window_len : ℕ)
    (h3 : 3 ≤ window_len) (hlen : window_len ≤ x.length) :
    ∃ y, smooth x window_len none = .ok y ∧
      y.length = x.length + window_len - 1 := by
  rw [smooth.eq_def, if_neg (by omega), if_neg (by omega)]
  refine ⟨_, rfl, ?_⟩
  have hw : ((hanningList window_len).map
      (fun v => v / (hanningList window_len).sum)).length = window_len := by
    rw [List.length_map, hanningList_length]
  have hs : (((x.drop 1).take (window_len - 1)).reverse ++ x ++
      ((x.take (x.length - 1)).drop (x.length - window_len)).reverse).length
      = x.length + 2 * (window_len - 1) := by
    simp only [List.length_append, List.length_reverse, List.length_take,
      List.length_drop]
    omega
  rw [convolveValid_length _ _ (by rw [hw, hs]; omega), hw, hs]
  omega

/-- C10 witness. -/
theorem C10_smooth_length_wit :
    3 ≤ 3 ∧ 3 ≤ ([0, 1, 2] : List ℝ).length ∧
      ∃ y, smooth [0, 1, 2] 3 none = .ok y ∧ y.length = 5 :=
  ⟨by norm_num, by norm_num, C10_smooth_length [0, 1, 2] 3 (by norm_num) (by norm_num)⟩

/-- C8: the claim asserts the evaluator "does not guard against sigma = 0"
and that a zero sigma triggers a division by zero.  This is false: the
source wraps the computation in `if sigma != 0:`, so at `sigma = 0` no
division is performed; instead the unassigned local `gaussian` makes
`return gaussian` raise `UnboundLocalError`. -/
theorem C8_sigma_zero_no_div :
    gaussEval 1 0 0 1 = .error .unboundLocal ∧
      gaussEval 1 0 0 1 ≠ .error .zeroDivision := by
  constructor
  · simp [gaussEval]
  · simp [gaussEval]

/-- C8 (amended): the single-Gaussian evaluator checks `sigma != 0`; when
sigma is exactly zero it raises an unbound-local error (no division by zero
is performed), and for every `sigma ≠ 0` it returns
`|amplitude| * exp(-(x-mean)^2 / (2*sigma^2))`. -/
theorem C8_gauss_guard (x x0 sigma a : ℝ) :
    (sigma = 0 → gaussEval x x0 sigma a = .error .unboundLocal) ∧
    (sigma ≠ 0 → gaussEval x x0 sigma a =
      .ok (|a| * Real.exp (-(x - x0) ^ 2 / (2 * sigma ^ 2)))) := by
  constructor
  · intro h
    simp [gaussEval, h]
  · intro h
    rw [gaussEval, if_pos h, abs_mul, abs_of_pos (Real.exp_pos _)]

/-- C8 witness. -/
theorem C8_gauss_guard_wit :
    (2 : ℝ) ≠ 0 ∧ gaussEval 1 0 2 3 = .ok (|(3 : ℝ)| * Real.exp (-(1 - 0) ^ 2 / (2 * 2 ^ 2))) :=
  ⟨by norm_num, (C8_gauss_guard 1 0 2 3).2 (by norm_num)⟩

/-- C2: for a pair of adjacent ordered curves with no sign change, the
source appends `0.5 * np.abs(xline[gauss_max2] + xline[gauss_max1])` — the
halved absolute value of the *sum* of the two peak x-locations — although
its own comment says "set state limit as center between maxima".  With
peaks at `x = -2` and `x = -1` the midpoint is `-3/2`, but the code
produces `+3/2`, a value outside the interval between the two peaks.  The
claim that the appended boundary equals the midpoint of the peak
x-locations is therefore false on the code; the code slip is the absolute
value taken of the sum instead of the midpoint itself. -/
theorem C2_no_crossing_not_midpoint :
    crossIdx [2, 4, 3] [1, 2, 5/2] = [] ∧
      get_intersects [[2, 4, 3], [1, 2, 5/2]] [-3, -1/2] [-3, -2, -1] =
        .ok [-3, 3/2, -1/2] ∧
      (3/2 : ℚ) ≠ (-2 + -1) / 2 := by
  refine ⟨by decide, by decide, by norm_num⟩

/-- C1: `determine_state_limits` on the sentinel-free input `[-3, -1/2]`,
with the fit stage returning the two non-crossing curves of `fitCexC1`,
yields the sorted list `[-3, -1/2, 3/2]`.  Its last element is `3/2`, not
the maximum `-1/2` of the sentinel-filtered distribution (and no sentinel
was present), so the claimed boundary-list invariant fails on the code.
The failure comes from the midpoint slip of C2: the no-crossing fallback
boundary `0.5*|(-2) + (-1)| = 3/2` exceeds every sample of the
distribution. -/
theorem C1_last_element_not_max :
    determine_state_limits_with fitCexC1 [-3, -1/2] = .ok [-3, -1/2, 3/2] ∧
      ([-3, -1/2] : List ℚ).count 10000.0 = 0 ∧
      pyMax (([-3, -1/2] : List ℚ).filter (fun item => item != 10000.0)) = -1/2 ∧
      ([-3, -1/2, 3/2] : List ℚ).getLast (by decide) ≠ -1/2 := by
  refine ⟨by decide, by decide, by decide, by decide⟩

lemma npInsertAlt_length : ∀ a b : List ℤ, (npInsertAlt a b).length = a.length + b.length
  | _, [] => by simp [npInsertAlt]
  | [], v :: vs => by simp [npInsertAlt]
  | b :: bs, v :: vs => by
    simp [npInsertAlt, npInsertAlt_length bs vs]
    omega

lemma bin_adjust_up_length : bin_adjust_up.length = 9999 := by
  simp [bin_adjust_up]

lemma bin_adjust_down_length : bin_adjust_down.length = 9999 := by
  simp [bin_adjust_down, bin_adjust_up_length]

lemma bin_adjust_length : bin_adjust.length = 19998 := by
  rw [bin_adjust, npInsertAlt_length, bin_adjust_up_length, bin_adjust_down_length]

lemma npInsertAlt_getD_even : ∀ (a b : List ℤ) (i : ℕ), a.length = b.length →
    i < b.length → (npInsertAlt a b).getD (2 * i) 0 = b.getD i 0
  | _, [], i, _, hi => by simp at hi
  | [], v :: vs, i, hlen, _ => by simp at hlen
  | x :: xs, v :: vs, 0, _, _ => by simp [npInsertAlt]
  | x :: xs, v :: vs, i + 1, hlen, hi => by
    have h2 : 2 * (i + 1) = 2 * i + 1 + 1 := by ring
    rw [npInsertAlt, h2, List.getD_cons_succ, List.getD_cons_succ,
      npInsertAlt_getD_even xs vs i (by simpa using hlen) (by simpa using hi),
      List.getD_cons_succ]

lemma npInsertAlt_getD_odd : ∀ (a b : List ℤ) (i : ℕ), a.length = b.length →
    i < b.length → (npInsertAlt a b).getD (2 * i + 1) 0 = a.getD i 0
  | _, [], i, _, hi => by simp at hi
  | [], v :: vs, i, hlen, _ => by simp at hlen
  | x :: xs, v :: vs, 0, _, _ => by simp [npInsertAlt]
  | x :: xs, v :: vs, i + 1, hlen, hi => by
    have h2 : 2 * (i + 1) + 1 = 2 * i + 1 + 1 + 1 := by ring
    rw [npInsertAlt, h2, List.getD_cons_succ, List.getD_cons_succ,
      npInsertAlt_getD_odd xs vs i (by simpa using hlen) (by simpa using hi),
      List.getD_cons_succ]

lemma bin_adjust_up_getD (i : ℕ) (h : i < 9999) :
    bin_adjust_up.getD i 0 = (i : ℤ) + 1 := by
  rw [bin_adjust_up, List.getD_eq_getElem?_getD, List.getElem?_map,
    List.getElem?_range h]
  rfl

lemma bin_adjust_down_getD (i : ℕ) (h : i < 9999) :
    bin_adjust_down.getD i 0 = -((i : ℤ) + 1) := by
  rw [bin_adjust_down, List.getD_eq_getElem?_getD, List.getElem?_map]
  rw [bin_adjust_up, List.getElem?_map, List.getElem?_range h]
  show ((i : ℤ) + 1) * -1 = -((i : ℤ) + 1)
  ring

lemma bin_adjust_getD (c : ℕ) (h : c < 19998) :
    bin_adjust.getD c 0 =
      if c % 2 = 0 then -(((c / 2 : ℕ) : ℤ) + 1) else ((c / 2 : ℕ) : ℤ) + 1 := by
  have hlen : bin_adjust_up.length = bin_adjust_down.length := by
    rw [bin_adjust_up_length, bin_adjust_down_length]
  rcases Nat.even_or_odd c with ⟨i, hi⟩ | ⟨i, hi⟩
  · have hc : c = 2 * i := by omega
    subst hc
    rw [bin_adjust, npInsertAlt_getD_even _ _ i hlen (by rw [bin_adjust_down_length]; omega),
      bin_adjust_down_getD i (by omega)]
    have hm : 2 * i % 2 = 0 := by omega
    have h2 : 2 * i / 2 = i := by omega
    rw [if_pos hm, h2]
  · have hc : c = 2 * i + 1 := by omega
    subst hc
    rw [bin_adjust, npInsertAlt_getD_odd _ _ i hlen (by rw [bin_adjust_down_length]; omega),
      bin_adjust_up_getD i (by omega)]
    have hm : (2 * i + 1) % 2 ≠ 0 := by omega
    have h2 : (2 * i + 1) / 2 = i := by omega
    rw [if_neg hm, h2]

lemma smartFitLoop_smooth_const (fitOK : ℤ → ℤ → Bool) (o gs : ℤ) :
    ∀ (fuel a : ℕ) (b : ℤ) (r : ℤ × ℤ × ℕ),
      smartFitLoop fitOK o gs fuel a b = some r → r.2.1 = gs := by
  intro fuel
  induction fuel with
  | zero =>
    intro a b r h
    simp [smartFitLoop] at h
  | succ n ih =>
    intro a b r h
    rw [smartFitLoop] at h
    by_cases hf : fitOK b gs
    · rw [if_pos hf] at h
      cases h
      rfl
    · rw [if_neg hf] at h
      by_cases hb : a + 1 < bin_adjust.length
      · rw [if_pos hb] at h
        exact ih _ _ _ h
      · rw [if_neg hb] at h
        cases h

lemma attemptBins_zero (o : ℤ) : attemptBins o 0 = o := by
  rw [attemptBins, if_pos rfl]

lemma attemptBins_succ (o : ℤ) (m : ℕ) :
    attemptBins o (m + 1) = o + bin_adjust.getD (m + 1) 0 := by
  rw [attemptBins, if_neg (by omega)]

lemma smartFitLoop_run (fitOK : ℤ → ℤ → Bool) (o gs : ℤ) :
    ∀ (fuel a c : ℕ), a ≤ c → c < bin_adjust.length → c - a < fuel →
      (∀ j, a ≤ j → j < c → fitOK (attemptBins o j) gs = false) →
      fitOK (attemptBins o c) gs = true →
      smartFitLoop fitOK o gs fuel a (attemptBins o a) =
        some (attemptBins o c, gs, c) := by
  intro fuel
  induction fuel with
  | zero =>
    intro a c hac hc hfuel hfail hsucc
    omega
  | succ n ih =>
    intro a c hac hc hfuel hfail hsucc
    rw [smartFitLoop]
    by_cases heq : a = c
    · subst heq
      rw [if_pos hsucc]
    · have hlt : a < c := by omega
      rw [if_neg (by simp [hfail a (le_refl a) hlt]),
        if_pos (show a + 1 < bin_adjust.length by omega), ← attemptBins_succ]
      exact ih (a + 1) c (by omega) hc (by omega)
        (fun j hj1 hj2 => hfail j (by omega) hj2) hsucc

lemma bin_adjust_getD_one : bin_adjust.getD 1 0 = 1 := by
  rw [bin_adjust_getD 1 (by norm_num)]
  norm_num

lemma bin_adjust_getD_two : bin_adjust.getD 2 0 = -2 := by
  rw [bin_adjust_getD 2 (by norm_num)]
  norm_num

/-- C4 (amended): the `n`-th retry of the adaptive fitter uses bin count
`original + a(n)` where `a` is the interleaved table
`[-1, +1, -2, +2, -3, 3, ...]` read from index `n = attempt_no` onwards:
since `attempt_no` is incremented before indexing, the entry `-1` at index
0 is skipped and the applied perturbation sequence is
`+1, -2, +2, -3, +3, ...` — closed form `a(n) = n/2 + 1` for odd `n` and
`-(n/2 + 1)` for even `n` — for every `n` up to the table bound 19997.
In particular the first retry uses `original + 1` but the second uses
`original - 2`, not `original - 1`. -/
theorem C4_retry_bins (fitOK : ℤ → ℤ → Bool) (origin : ℤ) (c : ℕ)
    (h1 : 1 ≤ c) (h2 : c ≤ 19997)
    (hfail : ∀ j, j < c → fitOK (attemptBins origin j) (origin / 10) = false)
    (hsucc : fitOK (attemptBins origin c) (origin / 10) = true) :
    smart_gauss_fit fitOK origin none = some (attemptBins origin c, origin / 10, c) ∧
      attemptBins origin c = origin +
        (if c % 2 = 0 then -(((c / 2 : ℕ) : ℤ) + 1) else ((c / 2 : ℕ) : ℤ) + 1) := by
  constructor
  · rw [smart_gauss_fit]
    have hr := smartFitLoop_run fitOK origin (origin / 10) (bin_adjust.length + 1) 0 c
      (by omega) (by rw [bin_adjust_length]; omega) (by rw [bin_adjust_length]; omega)
      (fun j _ hj => hfail j hj) hsucc
    rwa [attemptBins_zero] at hr
  · rw [attemptBins, if_neg (by omega), bin_adjust_getD c (by omega)]

/-- C4 witness: with the original bin count 120 and a fit that fails once
then succeeds, the single retry uses `120 + 1 = 121`. -/
theorem C4_retry_bins_wit :
    smart_gauss_fit (fun b _ => b == 121) 120 none = some (121, 12, 1) ∧
      (121 : ℤ) = 120 + 1 := by
  have hab : attemptBins 120 1 = (121 : ℤ) := by
    rw [attemptBins_succ, bin_adjust_getD_one]
    norm_num
  obtain ⟨hrun, hform⟩ := C4_retry_bins (fun b _ => b == 121) 120 1 (by norm_num) (by norm_num)
    (fun j hj => by
      have hj0 : j = 0 := by omega
      subst hj0
      rw [attemptBins_zero]
      decide)
    (by rw [hab]; decide)
  rw [hab] at hrun hform
  refine ⟨?_, by norm_num⟩
  rw [hrun]
  norm_num

/-- C4 counterexample: the claim says the second retry uses
`original - 1`; with original bin count 120 and a fit succeeding only at
bin count 118, the loop stops at `attempt_no = 2` having used
`120 + bin_adjust[2] = 118`, because `bin_adjust[2] = -2` — the second
element of the applied sequence is `-2`, not the claimed `-1`. -/
theorem C4_second_retry_cex :
    smart_gauss_fit (fun b _ => b == 118) 120 none = some (118, 12, 2) ∧
      bin_adjust.getD 2 0 = -2 ∧ ((-2 : ℤ) ≠ -1) := by
  have h1 : attemptBins 120 1 = (121 : ℤ) := by
    rw [attemptBins_succ, bin_adjust_getD_one]
    norm_num
  have h2 : attemptBins 120 2 = (118 : ℤ) := by
    rw [attemptBins_succ, bin_adjust_getD_two]
    norm_num
  have hrun := smartFitLoop_run (fun b _ => b == 118) 120 12 (bin_adjust.length + 1) 0 2
    (by omega) (by rw [bin_adjust_length]; omega) (by rw [bin_adjust_length]; omega)
    (fun j _ hj => by
      interval_cases j
      · rw [attemptBins_zero]; decide
      · rw [h1]; decide)
    (by rw [h2]; decide)
  refine ⟨?_, bin_adjust_getD_two, by norm_num⟩
  rw [smart_gauss_fit]
  rw [attemptBins_zero] at hrun
  rw [show (120 : ℤ) / 10 = 12 from by decide, hrun, h2]

/-- C5 (amended): when the smoothing window is not explicitly configured
(`gauss_smooth is None`), it is computed once as `int(0.1 * original bin
count)` before the retry loop and never recomputed: every attempt,
including retries with perturbed bin counts, uses that same
original-derived window. -/
theorem C5_smooth_window_fixed (fitOK : ℤ → ℤ → Bool) (origin : ℤ) (r : ℤ × ℤ × ℕ)
    (h : smart_gauss_fit fitOK origin none = some r) : r.2.1 = origin / 10 := by
  rw [smart_gauss_fit] at h
  exact smartFitLoop_smooth_const fitOK origin (origin / 10) _ _ _ _ h

/-- C5 witness. -/
theorem C5_smooth_window_fixed_wit :
    smart_gauss_fit (fun b s => b == 120 && s == 12) 120 none = some (120, 12, 0) ∧
      (12 : ℤ) = 120 / 10 := by
  have h : smart_gauss_fit (fun b s => b == 120 && s == 12) 120 none = some (120, 12, 0) := by
    rw [smart_gauss_fit, show (120 : ℤ) / 10 = 12 from by decide, smartFitLoop]
    decide
  exact ⟨h, C5_smooth_window_fixed _ _ _ h⟩

/-- C5 counterexample: with the original bin count 19 (window
`int(19*0.1) = 1`) and a fit succeeding only at bin count 20, the
successful retry uses bin count 20 together with window 1 — not
`int(20*0.1) = 2` as the claim's per-retry recomputation would give. -/
theorem C5_window_not_recomputed_cex :
    smart_gauss_fit (fun b _ => b == 20) 19 none = some (20, 1, 1) ∧
      (1 : ℤ) ≠ 20 / 10 := by
  have h1 : attemptBins 19 1 = (20 : ℤ) := by
    rw [attemptBins_succ, bin_adjust_getD_one]
    norm_num
  have hrun := smartFitLoop_run (fun b _ => b == 20) 19 1 (bin_adjust.length + 1) 0 1
    (by omega) (by rw [bin_adjust_length]; omega) (by rw [bin_adjust_length]; omega)
    (fun j _ hj => by
      have hj0 : j = 0 := by omega
      subst hj0
      rw [attemptBins_zero]
      decide)
    (by rw [h1]; decide)
  constructor
  · rw [smart_gauss_fit]
    rw [attemptBins_zero] at hrun
    rw [show (19 : ℤ) / 10 = 1 from by decide, hrun, h1]
  · decide

lemma lexLe_refl (a : ℚ × ℕ) : lexLe a a :=
  Or.inr ⟨rfl, le_refl _⟩

lemma lexLe_trans {a b c : ℚ × ℕ} (h1 : lexLe a b) (h2 : lexLe b c) : lexLe a c := by
  rcases h1 with h1 | ⟨h1e, h1n⟩
  · rcases h2 with h2 | ⟨h2e, _⟩
    · exact Or.inl (lt_trans h1 h2)
    · exact Or.inl (h2e ▸ h1)
  · rcases h2 with h2 | ⟨h2e, h2n⟩
    · exact Or.inl (h1e ▸ h2)
    · exact Or.inr ⟨h1e.trans h2e, le_trans h1n h2n⟩

lemma lexLe_total (a b : ℚ × ℕ) : lexLe a b ∨ lexLe b a := by
  rcases lt_trichotomy a.1 b.1 with h | h | h
  · exact Or.inl (Or.inl h)
  · rcases le_total a.2 b.2 with hn | hn
    · exact Or.inl (Or.inr ⟨h, hn⟩)
    · exact Or.inr (Or.inr ⟨h.symm, hn⟩)
  · exact Or.inr (Or.inl h)

lemma popMin_eq_none : ∀ h : List (ℚ × ℕ), popMin h = none → h = [] := by
  intro h hh
  cases h with
  | nil => rfl
  | cons a t =>
    rw [popMin] at hh
    cases hpt : popMin t with
    | none =>
      simp only [hpt] at hh
      exact Option.noConfusion hh
    | some mr =>
      obtain ⟨m', r'⟩ := mr
      simp only [hpt] at hh
      by_cases hc : lexLe a m'
      · rw [if_pos hc] at hh
        cases hh
      · rw [if_neg hc] at hh
        cases hh

lemma popMin_perm : ∀ (h : List (ℚ × ℕ)) (m : ℚ × ℕ) (r : List (ℚ × ℕ)),
    popMin h = some (m, r) → h.Perm (m :: r) := by
  intro h
  induction h with
  | nil =>
    intro m r hh
    simp [popMin] at hh
  | cons a t ih =>
    intro m r hh
    rw [popMin] at hh
    cases hpt : popMin t with
    | none =>
      have ht : t = [] := popMin_eq_none t hpt
      subst ht
      simp only [hpt, Option.some.injEq, Prod.mk.injEq] at hh
      obtain ⟨rfl, rfl⟩ := hh
      exact List.Perm.refl _
    | some mr =>
      obtain ⟨m', r'⟩ := mr
      simp only [hpt] at hh
      by_cases hc : lexLe a m'
      · rw [if_pos hc] at hh
        simp only [Option.some.injEq, Prod.mk.injEq] at hh
        obtain ⟨rfl, rfl⟩ := hh
        exact List.Perm.refl _
      · rw [if_neg hc] at hh
        simp only [Option.some.injEq, Prod.mk.injEq] at hh
        obtain ⟨rfl, rfl⟩ := hh
        exact ((ih m' r' hpt).cons a).trans (List.Perm.swap m' a r')

lemma popMin_min : ∀ (h : List (ℚ × ℕ)) (m : ℚ × ℕ) (r : List (ℚ × ℕ)),
    popMin h = some (m, r) → ∀ b ∈ h, lexLe m b := by
  intro h
  induction h with
  | nil =>
    intro m r hh
    simp [popMin] at hh
  | cons a t ih =>
    intro m r hh b hb
    rw [popMin] at hh
    cases hpt : popMin t with
    | none =>
      have ht : t = [] := popMin_eq_none t hpt
      subst ht
      simp only [hpt, Option.some.injEq, Prod.mk.injEq] at hh
      obtain ⟨rfl, rfl⟩ := hh
      simp only [List.mem_singleton] at hb
      subst hb
      exact lexLe_refl b
    | some mr =>
      obtain ⟨m', r'⟩ := mr
      simp only [hpt] at hh
      by_cases hc : lexLe a m'
      · rw [if_pos hc] at hh
        simp only [Option.some.injEq, Prod.mk.injEq] at hh
        obtain ⟨rfl, rfl⟩ := hh
        rcases List.mem_cons.1 hb with rfl | hbt
        · exact lexLe_refl b
        · exact lexLe_trans hc (ih m' r' hpt b hbt)
      · rw [if_neg hc] at hh
        simp only [Option.some.injEq, Prod.mk.injEq] at hh
        obtain ⟨rfl, rfl⟩ := hh
        rcases List.mem_cons.1 hb with rfl | hbt
        · rcases lexLe_total b m' with hba | hmb
          · exact absurd hba hc
          · exact hmb
        · exact ih m' r' hpt b hbt

lemma popMin_length {h : List (ℚ × ℕ)} {m : ℚ × ℕ} {r : List (ℚ × ℕ)}
    (hh : popMin h = some (m, r)) : h.length = r.length + 1 := by
  have := (popMin_perm h m r hh).length_eq
  simpa using this

lemma drainAux_perm : ∀ (fuel : ℕ) (h : List (ℚ × ℕ)), h.length ≤ fuel →
    (drainAux fuel h).Perm h := by
  intro fuel
  induction fuel with
  | zero =>
    intro h hlen
    have : h = [] := List.length_eq_zero.1 (by omega)
    subst this
    exact List.Perm.refl _
  | succ n ih =>
    intro h hlen
    rw [drainAux]
    cases hpm : popMin h with
    | none =>
      rw [popMin_eq_none h hpm]
    | some mr =>
      obtain ⟨m, r⟩ := mr
      have hperm := popMin_perm h m r hpm
      have hlr : r.length + 1 = h.length := (popMin_length hpm).symm
      exact ((ih r (by omega)).cons m).trans hperm.symm

lemma drain_perm (h : List (ℚ × ℕ)) : (drain h).Perm h :=
  drainAux_perm h.length h (le_refl _)

lemma heapInit (arr : List ℚ) (x : ℚ) (k : ℕ) :
    HeapInv arr x k ((List.range k).map (fun i => (-|arr.getD i 0 - x|, i))) := by
  refine ⟨?_, ?_, ?_⟩
  · intro e he
    rcases List.mem_map.1 he with ⟨i, hi, rfl⟩
    exact ⟨List.mem_range.1 hi, rfl⟩
  · rw [List.map_map]
    have hcomp : (Prod.snd ∘ fun i : ℕ => ((-|arr.getD i 0 - x|, i) : ℚ × ℕ)) = id := rfl
    rw [hcomp, List.map_id]
    exact List.nodup_range k
  · intro j hj hnot
    exfalso
    exact hnot (-|arr.getD j 0 - x|, j) (List.mem_map.2 ⟨j, List.mem_range.2 hj, rfl⟩) rfl

lemma heapStep_keep (arr : List ℚ) (x : ℚ) (i : ℕ) (h r : List (ℚ × ℕ)) (p : ℚ) (pi : ℕ)
    (hpm : popMin h = some ((p, pi), r)) (inv : HeapInv arr x i h)
    (hgt : -p < |arr.getD i 0 - x|) :
    HeapInv arr x (i + 1) ((p, pi) :: r) := by
  obtain ⟨ha, hb, hc⟩ := inv
  have hperm := popMin_perm h (p, pi) r hpm
  have hmem : ∀ e ∈ (p, pi) :: r, e ∈ h := fun e he => (hperm.mem_iff).2 he
  refine ⟨?_, ?_, ?_⟩
  · intro e he
    obtain ⟨h1, h2⟩ := ha e (hmem e he)
    exact ⟨by omega, h2⟩
  · exact (hperm.map Prod.snd).nodup hb
  · intro j hj hnot e he
    by_cases hji : j = i
    · subst hji
      have hple := popMin_min h (p, pi) r hpm e (hmem e he)
      have hpe : p ≤ e.1 := by
        rcases hple with hlt | ⟨heq, _⟩
        · exact le_of_lt hlt
        · exact le_of_eq heq
      have : -e.1 ≤ -p := by linarith
      linarith
    · have hjlt : j < i := by omega
      have hnot2 : ∀ e2 ∈ h, e2.2 ≠ j := fun e2 he2 =>
        hnot e2 ((hperm.mem_iff).1 he2)
      exact hc j hjlt hnot2 e (hmem e he)

lemma heapStep_swap (arr : List ℚ) (x : ℚ) (i : ℕ) (h r : List (ℚ × ℕ)) (p : ℚ) (pi : ℕ)
    (hpm : popMin h = some ((p, pi), r)) (inv : HeapInv arr x i h)
    (hle : |arr.getD i 0 - x| ≤ -p) :
    HeapInv arr x (i + 1) ((-|arr.getD i 0 - x|, i) :: r) := by
  obtain ⟨ha, hb, hc⟩ := inv
  have hperm := popMin_perm h (p, pi) r hpm
  have hrsub : ∀ e ∈ r, e ∈ h := fun e he => (hperm.mem_iff).2 (List.mem_cons_of_mem _ he)
  have hroot : (p, pi) ∈ h := (hperm.mem_iff).2 (List.mem_cons_self _ _)
  have hpd : p = -|arr.getD pi 0 - x| := (ha _ hroot).2
  have hsnd : (h.map Prod.snd).Perm (pi :: r.map Prod.snd) := hperm.map Prod.snd
  have hnodup2 : (pi :: r.map Prod.snd).Nodup := hsnd.nodup hb
  refine ⟨?_, ?_, ?_⟩
  · intro e he
    rcases List.mem_cons.1 he with rfl | her
    · exact ⟨by omega, rfl⟩
    · obtain ⟨h1, h2⟩ := ha e (hrsub e her)
      exact ⟨by omega, h2⟩
  · rw [List.map_cons]
    refine List.nodup_cons.2 ⟨?_, (List.nodup_cons.1 hnodup2).2⟩
    intro hmem
    rcases List.mem_map.1 hmem with ⟨e, her, hei⟩
    have := (ha e (hrsub e her)).1
    omega
  · intro j hj hnot e he
    by_cases hjpi : j = pi
    · subst hjpi
      have hdj : |arr.getD j 0 - x| = -p := by rw [hpd]; ring
      rcases List.mem_cons.1 he with rfl | her
      · simp only [neg_neg]
        rw [hdj]
        exact hle
      · have hple := popMin_min h (p, j) r hpm e (hrsub e her)
        have hpe : p ≤ e.1 := by
          rcases hple with hlt | ⟨heq, _⟩
          · exact le_of_lt hlt
          · exact le_of_eq heq
        rw [hdj]
        linarith
    · have hji : j ≠ i := by
        intro hcon
        subst hcon
        exact hnot _ (List.mem_cons_self _ _) rfl
      have hjlt : j < i := by omega
      have hjnot : ∀ e2 ∈ h, e2.2 ≠ j := by
        intro e2 he2
        have he2c : e2 ∈ (p, pi) :: r := (hperm.mem_iff).1 he2
        rcases List.mem_cons.1 he2c with rfl | he2r
        · exact fun hcon => hjpi hcon.symm
        · exact hnot e2 (List.mem_cons_of_mem _ he2r)
      have hall := hc j hjlt hjnot
      rcases List.mem_cons.1 he with rfl | her
      · simp only [neg_neg]
        have hpj := hall (p, pi) hroot
        simp only at hpj
        linarith
      · exact hall e (hrsub e her)

lemma processIdx_range (arr : List ℚ) (x : ℚ) :
    ∀ (m i : ℕ) (h : List (ℚ × ℕ)), h ≠ [] → HeapInv arr x i h →
      ∃ h2, processIdx arr x (List.range' i m) h = .ok h2 ∧
        HeapInv arr x (i + m) h2 ∧ h2.length = h.length := by
  intro m
  induction m with
  | zero =>
    intro i h hne inv
    exact ⟨h, rfl, by simpa using inv, rfl⟩
  | succ mm ih =>
    intro i h hne inv
    rw [List.range'_succ]
    cases hpm : popMin h with
    | none =>
      exact absurd (popMin_eq_none h hpm) hne
    | some mr =>
      obtain ⟨⟨p, pi⟩, r⟩ := mr
      rw [processIdx]
      simp only [hpm]
      have hlenr : r.length + 1 = h.length := (popMin_length hpm).symm
      by_cases hgt : |arr.getD i 0 - x| > -p
      · rw [if_pos hgt]
        obtain ⟨h2, hp2, hi2, hl2⟩ := ih (i + 1) ((p, pi) :: r) (by simp)
          (heapStep_keep arr x i h r p pi hpm inv hgt)
        refine ⟨h2, hp2, ?_, ?_⟩
        · have harith : i + 1 + mm = i + (mm + 1) := by omega
          rwa [harith] at hi2
        · rw [hl2]
          simp only [List.length_cons]
          omega
      · rw [if_neg hgt]
        obtain ⟨h2, hp2, hi2, hl2⟩ := ih (i + 1) ((-|arr.getD i 0 - x|, i) :: r) (by simp)
          (heapStep_swap arr x i h r p pi hpm inv (le_of_not_lt hgt))
        refine ⟨h2, hp2, ?_, ?_⟩
        · have harith : i + 1 + mm = i + (mm + 1) := by omega
          rwa [harith] at hi2
        · rw [hl2]
          simp only [List.length_cons]
          omega

/-- C7 (amended): for every array, every `n` not exceeding the array's
length, every target `x`, and every `1 ≤ k ≤ n`, the K-Closest Selector
returns exactly `k` values, each equal to one of the first `n` elements,
and no element among the first `n` that was not selected lies strictly
closer to the target than any selected value (hence than the maximum
selected difference).  The case `k = 0 < n` is excluded: there the source
calls `pq.get()` on an empty priority queue and blocks forever. -/
theorem C7_kclosest (arr : List ℚ) (n k : ℕ) (x : ℚ)
    (hk : 1 ≤ k) (hkn : k ≤ n) (hn : n ≤ arr.length) :
    ∃ res, printKclosest arr n x k = .ok res ∧ res.length = k ∧
      (∀ v ∈ res, ∃ j, j < n ∧ arr.getD j 0 = v) ∧
      (∀ j, j < n → arr.getD j 0 ∉ res → ∀ v ∈ res, |v - x| ≤ |arr.getD j 0 - x|) := by
  have h0len : ((List.range k).map (fun i => (-|arr.getD i 0 - x|, i))).length = k := by
    simp
  have h0ne : ((List.range k).map (fun i => (-|arr.getD i 0 - x|, i))) ≠ [] := by
    intro hcon
    rw [hcon] at h0len
    simp at h0len
    omega
  obtain ⟨h2, hp2, hinv, hlen⟩ := processIdx_range arr x (n - k) k _ h0ne (heapInit arr x k)
  have hbound : k + (n - k) = n := by omega
  rw [hbound] at hinv
  obtain ⟨ha, hb, hc⟩ := hinv
  refine ⟨(drain h2).map (fun e => arr.getD e.2 0), ?_, ?_, ?_, ?_⟩
  · rw [printKclosest, if_pos ⟨by omega, hn⟩]
    simp only [hp2]
  · rw [List.length_map, (drain_perm h2).length_eq, hlen, h0len]
  · intro v hv
    rcases List.mem_map.1 hv with ⟨e, hed, rfl⟩
    have heh : e ∈ h2 := (drain_perm h2).mem_iff.1 hed
    exact ⟨e.2, (ha e heh).1, rfl⟩
  · intro j hj hnot v hv
    rcases List.mem_map.1 hv with ⟨e, hed, rfl⟩
    have heh : e ∈ h2 := (drain_perm h2).mem_iff.1 hed
    have hjnot : ∀ e2 ∈ h2, e2.2 ≠ j := by
      intro e2 he2 hcon
      apply hnot
      rw [← hcon]
      exact List.mem_map.2 ⟨e2, (drain_perm h2).mem_iff.2 he2, rfl⟩
    have hall := hc j hj hjnot e heh
    have he1 : e.1 = -|arr.getD e.2 0 - x| := (ha e heh).2
    rw [he1, neg_neg] at hall
    exact hall

/-- C7 witness. -/
theorem C7_kclosest_wit :
    1 ≤ 2 ∧ 2 ≤ 3 ∧ 3 ≤ ([3, 1, 4, 1] : List ℚ).length ∧
      ∃ res, printKclosest [3, 1, 4, 1] 3 2 2 = .ok res ∧ res.length = 2 ∧
        (∀ v ∈ res, ∃ j, j < 3 ∧ ([3, 1, 4, 1] : List ℚ).getD j 0 = v) ∧
        (∀ j, j < 3 → ([3, 1, 4, 1] : List ℚ).getD j 0 ∉ res →
          ∀ v ∈ res, |v - 2| ≤ |([3, 1, 4, 1] : List ℚ).getD j 0 - 2|) :=
  ⟨by norm_num, by norm_num, by norm_num,
    C7_kclosest [3, 1, 4, 1] 3 2 2 (by norm_num) (by norm_num) (by norm_num)⟩

/-- C7 counterexample: the claim admits every `k ≤ n`, but for `k = 0` and
`n ≥ 1` the processing loop's first `pq.get()` finds an empty priority
queue and blocks forever (`queue.PriorityQueue.get` waits for an item);
the call never returns the promised 0 values.  The blocking call is
modelled by `PyErr.blocked`. -/
theorem C7_k_zero_blocks :
    printKclosest [1] 1 0 0 = .error .blocked ∧
      ∀ res : List ℚ, printKclosest [1] 1 0 0 ≠ .ok res := by
  constructor
  · decide
  · intro res hcon
    rw [show printKclosest [1] 1 0 0 = .error .blocked from by decide] at hcon
    exact Except.noConfusion hcon

set_option maxRecDepth 8000 in
/-- C3 counterexample: for the input above the half-max crossing is at
`xsig = 2` and the peak is at `mean_xval = 0`, so the claimed
`FWHM = 2*|xsig - mean_xval| = 4`; but the source computes
`FWHM = np.absolute(xsig - mean_xval) = 2` — the factor of 2 is absent
(the code stores the half-width at half maximum under the name `FWHM`),
and consequently `sigma = |xsig - mean_xval| / (2*sqrt(2*ln 2))`, half of
the claim's equivalent form `|xsig - mean_xval| / sqrt(2*ln 2)`. -/
theorem C3_fwhm_not_doubled :
    xsigOf dxCexC3 dyCexC3 200 = .ok 2 ∧
      mean_xvalOf dxCexC3 dyCexC3 200 = 0 ∧
      peak_FWHM dxCexC3 dyCexC3 200 = .ok 2 ∧
      (2 : ℚ) ≠ 2 * |(2 : ℚ) - 0| := by
  refine ⟨by decide, by decide, by decide, by norm_num⟩

/-- C3 (amended): for every surviving peak on which the half-max lookup
succeeds, the estimated FWHM equals the absolute difference between the
half-max crossing x-position and the peak's own x-position (not twice
it), and the initial sigma equals that FWHM divided by `2*sqrt(2*ln 2)`;
equivalently `sigma = |half-max x - peak x| / (2*sqrt(2*ln 2))`. -/
theorem C3_fwhm_sigma (dx dy : List ℚ) (extrema xs : ℚ)
    (h : xsigOf dx dy extrema = .ok xs) :
    peak_FWHM dx dy extrema = .ok |xs - mean_xvalOf dx dy extrema| ∧
      peak_sigma dx dy extrema =
        .ok ((|xs - mean_xvalOf dx dy extrema| : ℚ) / (2 * Real.sqrt (2 * Real.log 2))) := by
  have hF : peak_FWHM dx dy extrema = .ok |xs - mean_xvalOf dx dy extrema| := by
    simp only [peak_FWHM, h]
  exact ⟨hF, by simp only [peak_sigma, hF]⟩

set_option maxRecDepth 8000 in
/-- C3 witness. -/
theorem C3_fwhm_sigma_wit :
    xsigOf dxCexC3 dyCexC3 200 = .ok 2 ∧
      peak_FWHM dxCexC3 dyCexC3 200 = .ok |2 - mean_xvalOf dxCexC3 dyCexC3 200| ∧
      peak_sigma dxCexC3 dyCexC3 200 =
        .ok ((|2 - mean_xvalOf dxCexC3 dyCexC3 200| : ℚ) / (2 * Real.sqrt (2 * Real.log 2))) := by
  have h : xsigOf dxCexC3 dyCexC3 200 = .ok 2 := by decide
  obtain ⟨h1, h2⟩ := C3_fwhm_sigma dxCexC3 dyCexC3 200 2 h
  exact ⟨h, h1, h2⟩

/-- C9: if the significance filter retains zero peaks, `len(sig_vals) - 1
= -1` wraps (Python negative indexing) to the last table entry, the
10-component `_decamodal` model, and the initial-guess vector is empty;
no model-selection or zero-peaks error is raised at this step. -/
theorem C9_zero_peaks_decamodal (dx dy : List ℚ)
    (h : corrected_extrema dy = []) :
    gaussFitSelect dx dy = .ok (10, []) := by
  have hs : sig_vals dx dy = .ok [] := by
    rw [sig_vals, h, sigValsAux]
  have hm : mean_vals dx dy = [] := by
    rw [mean_vals, h]
    rfl
  simp only [gaussFitSelect, hs, hm, h]
  rfl

/-- C9 witness: a smoothed density whose only local maximum (value 1 at
index 1) is below the cutoff `0.0075 * 200 = 1.5`. -/
theorem C9_zero_peaks_decamodal_wit :
    corrected_extrema [0, 1, 0, 200] = [] ∧
      gaussFitSelect [0, 0, 0, 0] [0, 1, 0, 200] = .ok (10, []) :=
  ⟨by decide, C9_zero_peaks_decamodal [0, 0, 0, 0] [0, 1, 0, 200] (by decide)⟩

